import Mathlib

/-!
Verification of `src/bin/wrap_debug_prints.py`.

The script reads a file, splits its content on the newline character,
performs a single forward pass over the lines wrapping every unguarded
`debugPrint(` call in an `if (kDebugMode) { ... }` block, and joins the
resulting lines back with newlines.

Lines and texts are modelled as `List Char`; the transformation is a
structurally recursive rendering of the Python `while` loop, with an
explicit mode recording whether the scan is copying lines or inside a
multi-line call site (the `paren_count > 0` inner loop).
-/

namespace WrapDebugPrints

/-- ASCII whitespace as matched by Python's `\s` regex class and stripped by
`str.strip()`: space, tab, newline, carriage return, vertical tab, form feed.
(Python also accepts further Unicode whitespace; the inputs of interest are
ASCII source text, so the ASCII set is used throughout.) -/
def pyIsSpace (c : Char) : Bool :=
  c = ' ' || c = '\t' || c = '\n' || c = '\r' || c = '\x0b' || c = '\x0c'

/-- Python `str.strip()`: remove leading and trailing whitespace. -/
def pyStrip (l : List Char) : List Char :=
  ((l.dropWhile pyIsSpace).reverse.dropWhile pyIsSpace).reverse

/-- The literal text the call-start regex `^(\s*)debugPrint\(` requires right
after the captured leading whitespace. -/
def callStartPat : List Char := "debugPrint(".toList

/-- `re.match(r'^(\s*)debugPrint\(', line)`: since `d` is not a whitespace
character, the regex matches iff the line, after its maximal whitespace
prefix, starts with `debugPrint(`; the captured group is that maximal
whitespace prefix.  Returns the captured indent on success. -/
def matchCallStart (l : List Char) : Option (List Char) :=
  if callStartPat.isPrefixOf (l.dropWhile pyIsSpace) then
    some (l.takeWhile pyIsSpace)
  else
    none

/-- Lines 32-34 of the script: the previous line, stripped, starts with
`if (kDebugMode)` or with `assert(`. -/
def already_wrapped (p : List Char) : Bool :=
  ("if (kDebugMode)".toList.isPrefixOf (pyStrip p)) ||
  ("assert(".toList.isPrefixOf (pyStrip p))

/-- The already-wrapped test as performed by the loop: `False` when there is
no previous line (`i = 0`), otherwise `already_wrapped` of the previous
line (lines 30-34 of the script). -/
def guardCheck : Option (List Char) → Bool
  | none => false
  | some p => already_wrapped p

/-- `line.count('(') - line.count(')')` (line 43 of the script). -/
def parenBalance (l : List Char) : Int :=
  (l.count '(' : Int) - (l.count ')' : Int)

/-- `f"  {dp_line}"`: one extra indentation unit of two spaces (line 54). -/
def reindent (l : List Char) : List Char := ' ' :: ' ' :: l

/-- `f"{indent}if (kDebugMode) {{"` (line 52). -/
def guardOpen (indent : List Char) : List Char :=
  indent ++ "if (kDebugMode) \x7b".toList

/-- `f"{indent}}}"` (line 55). -/
def guardClose (indent : List Char) : List Char :=
  indent ++ "\x7d".toList

/-- The inner `while paren_count > 0 and j < len(lines)` loop (lines 46-49):
starting from the balance `bal` of the already-collected lines, returns the
further lines appended to `debugprint_lines` and the remaining lines
(`lines[j:]`). -/
def scanCall : Int → List (List Char) → List (List Char) × List (List Char)
  | _, [] => ([], [])
  | bal, l :: ls =>
    if bal > 0 then
      let p := scanCall (bal + parenBalance l) ls
      (l :: p.1, p.2)
    else
      ([], l :: ls)

/-- Scan state of the forward pass: `copy prev` is the top of the `while`
loop about to examine a line whose predecessor in the input is `prev`
(`none` at `i = 0`); `inside indent bal` is part-way through collecting a
multi-line call site with current `paren_count = bal > 0` and the indent
captured at the call-start line. -/
inductive Mode where
  | copy : Option (List Char) → Mode
  | inside : List Char → Int → Mode

/-- The forward pass of `wrap_debug_prints` (lines 18-60 of the script),
rendered structurally: one input line is consumed per step.  In `inside`
mode the current line is appended to the call site; once the balance drops
to `≤ 0` (or input ends) the guard-closing line is emitted and the pass
resumes in `copy` mode with `prev` set to the last line of the site
(`i = j` in the script). -/
def wrapGo : Mode → List (List Char) → List (List Char)
  | Mode.copy _, [] => []
  | Mode.inside indent _, [] => [guardClose indent]
  | Mode.inside indent bal, l :: ls =>
    let bal2 := bal + parenBalance l
    if bal2 > 0 then
      reindent l :: wrapGo (Mode.inside indent bal2) ls
    else
      reindent l :: guardClose indent :: wrapGo (Mode.copy (some l)) ls
  | Mode.copy prev, l :: ls =>
    match matchCallStart l with
    | none => l :: wrapGo (Mode.copy (some l)) ls
    | some indent =>
      if guardCheck prev then
        l :: wrapGo (Mode.copy (some l)) ls
      else
        let bal := parenBalance l
        if bal > 0 then
          guardOpen indent :: reindent l :: wrapGo (Mode.inside indent bal) ls
        else
          guardOpen indent :: reindent l :: guardClose indent ::
            wrapGo (Mode.copy (some l)) ls

/-- The line-level transformation of `wrap_debug_prints`: the full forward
pass started at `i = 0` (no previous line). -/
def wrap_debug_prints (lines : List (List Char)) : List (List Char) :=
  wrapGo (Mode.copy none) lines

/-- `content.split('\n')` (line 14). -/
def splitLines (s : List Char) : List (List Char) := s.splitOn '\n'

/-- `'\n'.join(modified_lines)` (line 64). -/
def joinLines (ls : List (List Char)) : List Char := ['\n'].intercalate ls

/-- The whole text-to-text transformation the script applies to the file
content: split on newlines, run the forward pass, join with newlines. -/
def transformText (s : List Char) : List Char :=
  joinLines (wrap_debug_prints (splitLines s))

end WrapDebugPrints

namespace WrapDebugPrints

/-! ### Helper lemmas about the pattern match and strip -/

theorem dropWhile_append_of_forall {p : Char → Bool} {a b : List Char}
    (h : ∀ c ∈ a, p c = true) :
    (a ++ b).dropWhile p = b.dropWhile p := by
  induction a with
  | nil => rfl
  | cons c cs ih =>
    simp only [List.cons_append, List.dropWhile_cons,
      h c (List.mem_cons_self c cs), if_pos]
    exact ih fun d hd => h d (List.mem_cons_of_mem c hd)

theorem matchCallStart_indent_space {l indent : List Char}
    (h : matchCallStart l = some indent) : ∀ c ∈ indent, pyIsSpace c = true := by
  unfold matchCallStart at h
  split at h
  · cases h
    exact fun c hc => List.mem_takeWhile_imp hc
  · cases h

theorem pyStrip_append_of_space {a b : List Char}
    (h : ∀ c ∈ a, pyIsSpace c = true) : pyStrip (a ++ b) = pyStrip b := by
  unfold pyStrip
  rw [dropWhile_append_of_forall h]

theorem matchCallStart_guardOpen {indent : List Char}
    (h : ∀ c ∈ indent, pyIsSpace c = true) :
    matchCallStart (guardOpen indent) = none := by
  unfold matchCallStart guardOpen
  rw [dropWhile_append_of_forall h]
  rw [if_neg (by decide)]

theorem matchCallStart_guardClose {indent : List Char}
    (h : ∀ c ∈ indent, pyIsSpace c = true) :
    matchCallStart (guardClose indent) = none := by
  unfold matchCallStart guardClose
  rw [dropWhile_append_of_forall h]
  rw [if_neg (by decide)]

theorem matchCallStart_reindent {l indent : List Char}
    (h : matchCallStart l = some indent) :
    matchCallStart (reindent l) = some (' ' :: ' ' :: indent) := by
  unfold matchCallStart at h ⊢
  have hsp : pyIsSpace ' ' = true := by decide
  have hdrop : List.dropWhile pyIsSpace (reindent l) = List.dropWhile pyIsSpace l := by
    simp [reindent, List.dropWhile_cons, hsp]
  have htake : List.takeWhile pyIsSpace (reindent l) =
      ' ' :: ' ' :: List.takeWhile pyIsSpace l := by
    simp [reindent, List.takeWhile_cons, hsp]
  rw [hdrop, htake]
  split at h
  · rw [if_pos (by assumption)]
    cases h
    rfl
  · cases h

theorem already_wrapped_guardOpen {indent : List Char}
    (h : ∀ c ∈ indent, pyIsSpace c = true) :
    already_wrapped (guardOpen indent) = true := by
  unfold already_wrapped guardOpen
  rw [pyStrip_append_of_space h]
  decide

/-- A line that matches the call-start pattern, once stripped, still starts
with `debugPrint(`, hence is never classified as already wrapped. -/
theorem already_wrapped_of_match {l indent : List Char}
    (h : matchCallStart l = some indent) : already_wrapped l = false := by
  have hpre : callStartPat.isPrefixOf (l.dropWhile pyIsSpace) = true := by
    unfold matchCallStart at h
    split at h
    · assumption
    · cases h
  have hprefix2 : pyStrip l <+: l.dropWhile pyIsSpace := by
    have hmain := List.rdropWhile_prefix pyIsSpace (l.dropWhile pyIsSpace)
    simpa [pyStrip, List.rdropWhile] using hmain
  obtain ⟨t, ht⟩ := hprefix2
  obtain ⟨r, hr⟩ := List.isPrefixOf_iff_prefix.mp hpre
  unfold already_wrapped
  rcases hs : pyStrip l with _ | ⟨c, cs⟩
  · decide
  · rw [hs] at ht
    have hc : c = 'd' := by
      have hd : callStartPat = 'd' :: "ebugPrint(".toList := by decide
      rw [← ht, hd] at hr
      simp only [List.cons_append] at hr
      exact ((List.cons_eq_cons.mp hr).1).symm
    subst hc
    have e1 : "if (kDebugMode)".toList = 'i' :: "f (kDebugMode)".toList := by decide
    have e2 : "assert(".toList = 'a' :: "ssert(".toList := by decide
    have f1 : ('i' == 'd') = false := by decide
    have f2 : ('a' == 'd') = false := by decide
    rw [e1, e2, List.isPrefixOf_cons₂, List.isPrefixOf_cons₂, f1, f2]
    simp

/-! ### The forward pass, expressed through `scanCall` -/

theorem scanCall_nonpos {bal : Int} (h : ¬ bal > 0) (ls : List (List Char)) :
    scanCall bal ls = ([], ls) := by
  cases ls with
  | nil => rfl
  | cons l ls => simp [scanCall, h]

/-- While the balance is positive, the `inside` phase of the pass emits
exactly the lines `scanCall` collects, re-indented, then the guard-closing
line, and resumes copying at the remaining lines with the previous line set
to the last collected line. -/
theorem wrapGo_inside_eq (ls : List (List Char)) :
    ∀ (indent : List Char) (bal : Int), bal > 0 →
    wrapGo (Mode.inside indent bal) ls =
      ((scanCall bal ls).1.map reindent) ++ guardClose indent ::
        wrapGo (Mode.copy (scanCall bal ls).1.getLast?) (scanCall bal ls).2 := by
  induction ls with
  | nil =>
    intro indent bal _
    rfl
  | cons l ls ih =>
    intro indent bal h
    have hsc : scanCall bal (l :: ls) =
        (l :: (scanCall (bal + parenBalance l) ls).1,
          (scanCall (bal + parenBalance l) ls).2) := by
      simp [scanCall, h]
    rw [hsc]
    by_cases h2 : bal + parenBalance l > 0
    · have hlhs : wrapGo (Mode.inside indent bal) (l :: ls) =
          reindent l :: wrapGo (Mode.inside indent (bal + parenBalance l)) ls := by
        simp [wrapGo, h2]
      rw [hlhs, ih indent _ h2]
      cases ls with
      | nil => simp [scanCall, wrapGo]
      | cons x xs =>
        have hsc2 : scanCall (bal + parenBalance l) (x :: xs) =
            (x :: (scanCall (bal + parenBalance l + parenBalance x) xs).1,
              (scanCall (bal + parenBalance l + parenBalance x) xs).2) := by
          simp [scanCall, h2]
        rw [hsc2]
        simp
    · have hlhs : wrapGo (Mode.inside indent bal) (l :: ls) =
          reindent l :: guardClose indent :: wrapGo (Mode.copy (some l)) ls := by
        simp [wrapGo, h2]
      rw [hlhs, scanCall_nonpos h2 ls]
      simp

/-- Reaching, in copy mode, a line that matches the call-start pattern and is
not classified as already wrapped, the pass emits the guard-opening line, the
whole call site re-indented, the guard-closing line, and then continues on
the remaining lines with the previous line set to the last line of the
site. -/
theorem wrapGo_wrap (prev : Option (List Char)) (l : List Char)
    (ls : List (List Char)) (indent : List Char)
    (hm : matchCallStart l = some indent) (hg : guardCheck prev = false) :
    wrapGo (Mode.copy prev) (l :: ls) =
      guardOpen indent ::
        ((l :: (scanCall (parenBalance l) ls).1).map reindent ++
          guardClose indent ::
            wrapGo (Mode.copy (l :: (scanCall (parenBalance l) ls).1).getLast?)
              (scanCall (parenBalance l) ls).2) := by
  have hstep : wrapGo (Mode.copy prev) (l :: ls) =
      if parenBalance l > 0 then
        guardOpen indent :: reindent l ::
          wrapGo (Mode.inside indent (parenBalance l)) ls
      else
        guardOpen indent :: reindent l :: guardClose indent ::
          wrapGo (Mode.copy (some l)) ls := by
    simp [wrapGo, hm, hg]
  by_cases hb : parenBalance l > 0
  · rw [hstep, if_pos hb, wrapGo_inside_eq ls indent _ hb]
    cases ls with
    | nil => simp [scanCall, wrapGo]
    | cons x xs =>
      have hsc : scanCall (parenBalance l) (x :: xs) =
          (x :: (scanCall (parenBalance l + parenBalance x) xs).1,
            (scanCall (parenBalance l + parenBalance x) xs).2) := by
        simp [scanCall, hb]
      rw [hsc]
      simp
  · rw [hstep, if_neg hb, scanCall_nonpos hb ls]
    simp

/-! ### Characterisation of the boundary scan -/

/-- The value of `paren_count` once the first `m` scanned lines have been
added to the balance `bal` the scan started with. -/
def cumAfter (bal : Int) (ls : List (List Char)) (m : Nat) : Int :=
  bal + ((ls.take m).map parenBalance).sum

theorem cumAfter_cons (bal : Int) (l : List Char) (ls : List (List Char)) (m : Nat) :
    cumAfter bal (l :: ls) (m + 1) = cumAfter (bal + parenBalance l) ls m := by
  simp [cumAfter]
  ring

theorem scanCall_append (bal : Int) (ls : List (List Char)) :
    (scanCall bal ls).1 ++ (scanCall bal ls).2 = ls := by
  induction ls generalizing bal with
  | nil => rfl
  | cons l ls ih =>
    by_cases h : bal > 0
    · simp [scanCall, h, ih]
    · simp [scanCall, h]

theorem scanCall_take_drop (bal : Int) (ls : List (List Char)) :
    (scanCall bal ls).1 = ls.take (scanCall bal ls).1.length ∧
    (scanCall bal ls).2 = ls.drop (scanCall bal ls).1.length := by
  obtain ⟨a, b, hab⟩ : ∃ a b, scanCall bal ls = (a, b) := ⟨_, _, rfl⟩
  have happ : a ++ b = ls := by rw [← scanCall_append bal ls, hab]
  rw [hab]
  constructor
  · rw [← happ, List.take_left]
  · rw [← happ, List.drop_left]

/-- Every line the scan includes is included while `paren_count` is still
strictly positive. -/
theorem scanCall_pos_before (ls : List (List Char)) :
    ∀ (bal : Int) (m : Nat), m < (scanCall bal ls).1.length → cumAfter bal ls m > 0 := by
  induction ls with
  | nil =>
    intro bal m hm
    simp [scanCall] at hm
  | cons l ls ih =>
    intro bal m hm
    by_cases h : bal > 0
    · cases m with
      | zero => simpa [cumAfter] using h
      | succ m =>
        rw [cumAfter_cons]
        apply ih
        simp [scanCall, h] at hm
        omega
    · rw [scanCall_nonpos h] at hm
      simp at hm

/-- When the scan stops before the end of the input, it stops because
`paren_count` has dropped to zero or below. -/
theorem scanCall_stop (ls : List (List Char)) :
    ∀ bal : Int, (scanCall bal ls).1.length < ls.length →
      cumAfter bal ls ((scanCall bal ls).1.length) ≤ 0 := by
  induction ls with
  | nil =>
    intro bal h
    simp [scanCall] at h
  | cons l ls ih =>
    intro bal h
    by_cases hb : bal > 0
    · have hsc : scanCall bal (l :: ls) =
          (l :: (scanCall (bal + parenBalance l) ls).1,
            (scanCall (bal + parenBalance l) ls).2) := by
        simp [scanCall, hb]
      rw [hsc] at h ⊢
      simp only [List.length_cons] at h ⊢
      rw [cumAfter_cons]
      exact ih _ (by omega)
    · rw [scanCall_nonpos hb]
      simpa [cumAfter] using hb

/-- `paren_count` stays strictly positive at every check of the inner
`while` loop run over `ls`, so the scan never stops early. -/
def stayPos : Int → List (List Char) → Bool
  | _, [] => true
  | bal, l :: ls => decide (bal > 0) && stayPos (bal + parenBalance l) ls

theorem scanCall_all_of_stayPos :
    ∀ (ls : List (List Char)) (bal : Int), stayPos bal ls = true →
      scanCall bal ls = (ls, []) := by
  intro ls
  induction ls with
  | nil => intro bal _; rfl
  | cons l ls ih =>
    intro bal h
    rw [stayPos] at h
    have h1 : bal > 0 := by
      have := (Bool.and_eq_true _ _).mp h
      exact of_decide_eq_true this.1
    have h2 := ((Bool.and_eq_true _ _).mp h).2
    simp [scanCall, h1, ih _ h2]

/-- A pass that meets no line matching the call-start pattern copies its
input unchanged. -/
theorem wrapGo_copy_of_no_match :
    ∀ (ls : List (List Char)) (prev : Option (List Char)),
      (∀ l ∈ ls, matchCallStart l = none) →
      wrapGo (Mode.copy prev) ls = ls := by
  intro ls
  induction ls with
  | nil => intro prev _; rfl
  | cons l ls ih =>
    intro prev h
    have hl : matchCallStart l = none := h l (List.mem_cons_self l ls)
    simp [wrapGo, hl]
    exact ih (some l) fun x hx => h x (List.mem_cons_of_mem l hx)

/-! ### Lines produced by splitting on a separator do not contain it -/

theorem mem_splitOnP_forall (p : Char → Bool) :
    ∀ (xs l : List Char), l ∈ xs.splitOnP p → ∀ a ∈ l, p a = false := by
  intro xs
  induction xs with
  | nil =>
    intro l hl a ha
    rw [List.splitOnP_nil] at hl
    simp at hl
    subst hl
    simp at ha
  | cons x xs ih =>
    intro l hl a ha
    rw [List.splitOnP_cons] at hl
    by_cases hx : p x
    · rw [if_pos hx] at hl
      rcases List.mem_cons.mp hl with h1 | h1
      · subst h1; simp at ha
      · exact ih l h1 a ha
    · rw [if_neg hx] at hl
      rcases he : xs.splitOnP p with _ | ⟨hd, tl⟩
      · exact absurd he (List.splitOnP_ne_nil p xs)
      · rw [he] at hl
        simp only [List.modifyHead_cons] at hl
        rcases List.mem_cons.mp hl with h1 | h1
        · subst h1
          rcases List.mem_cons.mp ha with h2 | h2
          · subst h2; exact Bool.eq_false_iff.mpr hx
          · exact ih hd (by rw [he]; exact List.mem_cons_self hd tl) a h2
        · exact ih l (by rw [he]; exact List.mem_cons_of_mem hd h1) a ha

theorem not_newline_mem_of_mem_splitLines {s l : List Char}
    (h : l ∈ splitLines s) : '\n' ∉ l := by
  intro hmem
  have hall := mem_splitOnP_forall (fun c => c == '\n') s l
    (by simpa [splitLines, List.splitOn] using h) '\n' hmem
  simp at hall

/-! ### The round-trip derivation relation (claim C6) -/

/-- A guard line the transformation may insert: a whitespace indent followed
by `if (kDebugMode) \x7b` or by `\x7d`. -/
def IsGuardLine (g : List Char) : Prop :=
  ∃ indent, (∀ c ∈ indent, pyIsSpace c = true) ∧
    (g = guardOpen indent ∨ g = guardClose indent)

/-- `LineDeriv ins outs` says `outs` is obtained from `ins` by keeping every
line, in order, either unchanged or re-indented by one unit, with only
inserted guard lines in between. -/
inductive LineDeriv : List (List Char) → List (List Char) → Prop where
  | nil : LineDeriv [] []
  | copy (l : List Char) {ins outs : List (List Char)} :
      LineDeriv ins outs → LineDeriv (l :: ins) (l :: outs)
  | reind (l : List Char) {ins outs : List (List Char)} :
      LineDeriv ins outs → LineDeriv (l :: ins) (reindent l :: outs)
  | guardIns (g : List Char) {ins outs : List (List Char)} :
      IsGuardLine g → LineDeriv ins outs → LineDeriv ins (g :: outs)

/-! ### The loop indices of the forward pass (claim C7) -/

/-- `lines[i]` (defaulting outside the range, which the loop guard rules
out). -/
def lineAt (lines : List (List Char)) (i : Nat) : List Char := lines.getD i []

/-- The previous line used by the already-wrapped check: `lines[i-1]` when
`i > 0`, nothing at the first line. -/
def prevLineOpt (lines : List (List Char)) (i : Nat) : Option (List Char) :=
  if 0 < i then some (lineAt lines (i - 1)) else none

/-- The value of `i` after one iteration of the outer `while` loop that
started at `i`: `i + 1` for a copied or already-guarded line, and `j`
(one past the scanned call site) after wrapping. -/
def stepIndex (lines : List (List Char)) (i : Nat) : Nat :=
  match matchCallStart (lineAt lines i) with
  | none => i + 1
  | some _ =>
    if guardCheck (prevLineOpt lines i) then i + 1
    else i + 1 +
      ((scanCall (parenBalance (lineAt lines i)) (lines.drop (i + 1))).1).length

/-- The outer loop iterated `fuel` times (stopping as soon as
`i ≥ len(lines)`), returning the final index. -/
def loopIter (lines : List (List Char)) : Nat → Nat → Nat
  | 0, i => i
  | fuel + 1, i => if i < lines.length then loopIter lines fuel (stepIndex lines i) else i

/-! ### The command-line entry point (claim C8) -/

/-- Abstract effect of the `__main__` block: either print the usage message
and exit with the given status, touching no file, or call
`wrap_debug_prints` on the given path. -/
inductive MainAction where
  | usageExit : List Char → Nat → MainAction
  | runWrap : List Char → MainAction
  deriving DecidableEq

def usageMessage : List Char :=
  "Usage: python wrap_debug_prints.py <file_path>".toList

/-- Lines 68-73 of the script: `sys.argv` has the program name first, so
fewer than one user argument means `len(sys.argv) < 2`. -/
def mainEntry (argv : List (List Char)) : MainAction :=
  if argv.length < 2 then MainAction.usageExit usageMessage 1
  else MainAction.runWrap (argv.getD 1 [])

/-- The forward pass only copies, re-indents, or inserts guard lines; it
never drops, duplicates, or reorders an input line. -/
theorem wrapGo_deriv :
    ∀ (ls : List (List Char)) (m : Mode),
      (∀ ind b, m = Mode.inside ind b → ∀ c ∈ ind, pyIsSpace c = true) →
      LineDeriv ls (wrapGo m ls) := by
  intro ls
  induction ls with
  | nil =>
    intro m hm
    cases m with
    | copy prev => exact LineDeriv.nil
    | inside ind bal =>
      exact LineDeriv.guardIns _ ⟨ind, hm ind bal rfl, Or.inr rfl⟩ LineDeriv.nil
  | cons l ls ih =>
    intro m hm
    cases m with
    | inside ind bal =>
      have hind := hm ind bal rfl
      by_cases h2 : bal + parenBalance l > 0
      · have e : wrapGo (Mode.inside ind bal) (l :: ls) =
            reindent l :: wrapGo (Mode.inside ind (bal + parenBalance l)) ls := by
          simp [wrapGo, h2]
        rw [e]
        exact LineDeriv.reind l (ih _ (fun i b hib => by cases hib; exact hind))
      · have e : wrapGo (Mode.inside ind bal) (l :: ls) =
            reindent l :: guardClose ind :: wrapGo (Mode.copy (some l)) ls := by
          simp [wrapGo, h2]
        rw [e]
        exact LineDeriv.reind l (LineDeriv.guardIns _ ⟨ind, hind, Or.inr rfl⟩
          (ih _ (fun i b hib => by cases hib)))
    | copy prev =>
      rcases hmatch : matchCallStart l with _ | indent
      · have e : wrapGo (Mode.copy prev) (l :: ls) =
            l :: wrapGo (Mode.copy (some l)) ls := by
          simp [wrapGo, hmatch]
        rw [e]
        exact LineDeriv.copy l (ih _ (fun i b hib => by cases hib))
      · have hind := matchCallStart_indent_space hmatch
        by_cases hg : guardCheck prev = true
        · have e : wrapGo (Mode.copy prev) (l :: ls) =
              l :: wrapGo (Mode.copy (some l)) ls := by
            simp [wrapGo, hmatch, hg]
          rw [e]
          exact LineDeriv.copy l (ih _ (fun i b hib => by cases hib))
        · have hg2 : guardCheck prev = false := by simpa using hg
          by_cases hb : parenBalance l > 0
          · have e : wrapGo (Mode.copy prev) (l :: ls) =
                guardOpen indent :: reindent l ::
                  wrapGo (Mode.inside indent (parenBalance l)) ls := by
              simp [wrapGo, hmatch, hg2, hb]
            rw [e]
            exact LineDeriv.guardIns _ ⟨indent, hind, Or.inl rfl⟩
              (LineDeriv.reind l (ih _ (fun i b hib => by cases hib; exact hind)))
          · have e : wrapGo (Mode.copy prev) (l :: ls) =
                guardOpen indent :: reindent l :: guardClose indent ::
                  wrapGo (Mode.copy (some l)) ls := by
              simp [wrapGo, hmatch, hg2, hb]
            rw [e]
            exact LineDeriv.guardIns _ ⟨indent, hind, Or.inl rfl⟩
              (LineDeriv.reind l (LineDeriv.guardIns _ ⟨indent, hind, Or.inr rfl⟩
                (ih _ (fun i b hib => by cases hib))))

/-- Second-pass stability for single-line call sites.  The key invariant is
that whenever the first pass classified the next line as guarded, the second
pass does too (`himp`): every output line preceding a copied guarded call is
the same line that preceded it in the input. -/
theorem already_wrapped_idem_aux :
    ∀ (ls : List (List Char)) (p1 p2 : Option (List Char)),
      (∀ l ∈ ls, (matchCallStart l).isSome = true → parenBalance l ≤ 0) →
      (guardCheck p1 = true → guardCheck p2 = true) →
      wrapGo (Mode.copy p2) (wrapGo (Mode.copy p1) ls) = wrapGo (Mode.copy p1) ls := by
  intro ls
  induction ls with
  | nil => intro p1 p2 _ _; rfl
  | cons l ls ih =>
    intro p1 p2 h1 himp
    have h1tail : ∀ x ∈ ls, (matchCallStart x).isSome = true → parenBalance x ≤ 0 :=
      fun x hx => h1 x (List.mem_cons_of_mem l hx)
    rcases hmatch : matchCallStart l with _ | indent
    · have e1 : wrapGo (Mode.copy p1) (l :: ls) =
          l :: wrapGo (Mode.copy (some l)) ls := by
        simp [wrapGo, hmatch]
      have e2 : wrapGo (Mode.copy p2) (l :: wrapGo (Mode.copy (some l)) ls) =
          l :: wrapGo (Mode.copy (some l)) (wrapGo (Mode.copy (some l)) ls) := by
        simp [wrapGo, hmatch]
      rw [e1, e2, ih (some l) (some l) h1tail (fun hh => hh)]
    · by_cases hg : guardCheck p1 = true
      · have e1 : wrapGo (Mode.copy p1) (l :: ls) =
            l :: wrapGo (Mode.copy (some l)) ls := by
          simp [wrapGo, hmatch, hg]
        have hg2 : guardCheck p2 = true := himp hg
        have e2 : wrapGo (Mode.copy p2) (l :: wrapGo (Mode.copy (some l)) ls) =
            l :: wrapGo (Mode.copy (some l)) (wrapGo (Mode.copy (some l)) ls) := by
          simp [wrapGo, hmatch, hg2]
        rw [e1, e2, ih (some l) (some l) h1tail (fun hh => hh)]
      · have hg2 : guardCheck p1 = false := by simpa using hg
        have hbal : parenBalance l ≤ 0 :=
          h1 l (List.mem_cons_self l ls) (by rw [hmatch]; rfl)
        have hb : ¬ parenBalance l > 0 := by omega
        have hind := matchCallStart_indent_space hmatch
        have e1 : wrapGo (Mode.copy p1) (l :: ls) =
            guardOpen indent :: reindent l :: guardClose indent ::
              wrapGo (Mode.copy (some l)) ls := by
          simp [wrapGo, hmatch, hg2, hb]
        have s1 : matchCallStart (guardOpen indent) = none := matchCallStart_guardOpen hind
        have s2 : matchCallStart (reindent l) = some (' ' :: ' ' :: indent) :=
          matchCallStart_reindent hmatch
        have s3 : guardCheck (some (guardOpen indent)) = true := by
          simpa [guardCheck] using already_wrapped_guardOpen hind
        have s4 : matchCallStart (guardClose indent) = none := matchCallStart_guardClose hind
        have e2 : wrapGo (Mode.copy p2)
            (guardOpen indent :: reindent l :: guardClose indent ::
              wrapGo (Mode.copy (some l)) ls) =
            guardOpen indent :: reindent l :: guardClose indent ::
              wrapGo (Mode.copy (some (guardClose indent)))
                (wrapGo (Mode.copy (some l)) ls) := by
          simp [wrapGo, s1, s2, s3, s4]
        have himp2 : guardCheck (some l) = true →
            guardCheck (some (guardClose indent)) = true := by
          intro hcl
          exfalso
          have hfl := already_wrapped_of_match hmatch
          simp only [guardCheck] at hcl
          rw [hfl] at hcl
          exact Bool.false_ne_true hcl
        rw [e1, e2, ih (some l) (some (guardClose indent)) h1tail himp2]

/-- Output lines contain no newline character when input lines do not. -/
theorem wrapGo_no_newline :
    ∀ (ls : List (List Char)) (m : Mode),
      (∀ l ∈ ls, '\n' ∉ l) →
      (∀ ind b, m = Mode.inside ind b → '\n' ∉ ind) →
      ∀ l' ∈ wrapGo m ls, '\n' ∉ l' := by
  intro ls
  induction ls with
  | nil =>
    intro m hls hm l' hl'
    cases m with
    | copy prev => simp [wrapGo] at hl'
    | inside ind bal =>
      have : l' = guardClose ind := by simpa [wrapGo] using hl'
      subst this
      intro hmem
      rcases List.mem_append.mp hmem with h | h
      · exact hm ind bal rfl h
      · simp at h
  | cons l ls ih =>
    intro m hls hm l' hl'
    have hlhead : '\n' ∉ l := hls l (List.mem_cons_self l ls)
    have hltail : ∀ x ∈ ls, '\n' ∉ x := fun x hx => hls x (List.mem_cons_of_mem l hx)
    cases m with
    | inside ind bal =>
      have hind : '\n' ∉ ind := hm ind bal rfl
      by_cases h2 : bal + parenBalance l > 0
      · rw [show wrapGo (Mode.inside ind bal) (l :: ls) =
            reindent l :: wrapGo (Mode.inside ind (bal + parenBalance l)) ls from by
          simp [wrapGo, h2]] at hl'
        rcases List.mem_cons.mp hl' with h | h
        · subst h
          simp [reindent, hlhead]
        · exact ih _ hltail (fun i b hib => by cases hib; exact hind) l' h
      · rw [show wrapGo (Mode.inside ind bal) (l :: ls) =
            reindent l :: guardClose ind :: wrapGo (Mode.copy (some l)) ls from by
          simp [wrapGo, h2]] at hl'
        rcases List.mem_cons.mp hl' with h | h
        · subst h
          simp [reindent, hlhead]
        rcases List.mem_cons.mp h with h3 | h3
        · subst h3
          intro hmem
          rcases List.mem_append.mp hmem with h4 | h4
          · exact hind h4
          · simp at h4
        · exact ih _ hltail (fun i b hib => by cases hib) l' h3
    | copy prev =>
      rcases hmatch : matchCallStart l with _ | indent
      · rw [show wrapGo (Mode.copy prev) (l :: ls) =
            l :: wrapGo (Mode.copy (some l)) ls from by simp [wrapGo, hmatch]] at hl'
        rcases List.mem_cons.mp hl' with h | h
        · subst h; exact hlhead
        · exact ih _ hltail (fun i b hib => by cases hib) l' h
      · have hindsub : '\n' ∉ indent := by
          intro hmem
          apply hlhead
          have hit : indent = List.takeWhile pyIsSpace l := by
            unfold matchCallStart at hmatch
            split at hmatch
            · exact (Option.some_inj.mp hmatch).symm
            · cases hmatch
          rw [hit] at hmem
          exact List.takeWhile_subset pyIsSpace hmem
        by_cases hg : guardCheck prev = true
        · rw [show wrapGo (Mode.copy prev) (l :: ls) =
              l :: wrapGo (Mode.copy (some l)) ls from by simp [wrapGo, hmatch, hg]] at hl'
          rcases List.mem_cons.mp hl' with h | h
          · subst h; exact hlhead
          · exact ih _ hltail (fun i b hib => by cases hib) l' h
        · have hg2 : guardCheck prev = false := by simpa using hg
          have hopen : '\n' ∉ guardOpen indent := by
            intro hmem
            rcases List.mem_append.mp hmem with h4 | h4
            · exact hindsub h4
            · simp at h4
          have hclose : '\n' ∉ guardClose indent := by
            intro hmem
            rcases List.mem_append.mp hmem with h4 | h4
            · exact hindsub h4
            · simp at h4
          by_cases hb : parenBalance l > 0
          · rw [show wrapGo (Mode.copy prev) (l :: ls) =
                guardOpen indent :: reindent l ::
                  wrapGo (Mode.inside indent (parenBalance l)) ls from by
              simp [wrapGo, hmatch, hg2, hb]] at hl'
            rcases List.mem_cons.mp hl' with h | h
            · subst h; exact hopen
            rcases List.mem_cons.mp h with h3 | h3
            · subst h3; simp [reindent, hlhead]
            · exact ih _ hltail (fun i b hib => by cases hib; exact hindsub) l' h3
          · rw [show wrapGo (Mode.copy prev) (l :: ls) =
                guardOpen indent :: reindent l :: guardClose indent ::
                  wrapGo (Mode.copy (some l)) ls from by
              simp [wrapGo, hmatch, hg2, hb]] at hl'
            rcases List.mem_cons.mp hl' with h | h
            · subst h; exact hopen
            rcases List.mem_cons.mp h with h3 | h3
            · subst h3; simp [reindent, hlhead]
            rcases List.mem_cons.mp h3 with h4 | h4
            · subst h4; exact hclose
            · exact ih _ hltail (fun i b hib => by cases hib) l' h4

/-- The pass never turns a nonempty list of lines into the empty list. -/
theorem wrapGo_copy_cons_ne_nil (p : Option (List Char)) (l : List Char)
    (ls : List (List Char)) :
    wrapGo (Mode.copy p) (l :: ls) ≠ [] := by
  rcases hm : matchCallStart l with _ | indent
  · simp [wrapGo, hm]
  · by_cases hg : guardCheck p = true
    · simp [wrapGo, hm, hg]
    · have hg2 : guardCheck p = false := by simpa using hg
      by_cases hb : parenBalance l > 0
      · simp [wrapGo, hm, hg2, hb]
      · simp [wrapGo, hm, hg2, hb]

theorem splitLines_ne_nil (s : List Char) : splitLines s ≠ [] := by
  simpa [splitLines, List.splitOn] using List.splitOnP_ne_nil (fun c => c == '\n') s

/-! ### Loop-index progress -/

theorem stepIndex_gt (lines : List (List Char)) (i : Nat) : i < stepIndex lines i := by
  rcases hm : matchCallStart (lineAt lines i) with _ | ind
  · simp [stepIndex, hm]
  · simp only [stepIndex, hm]
    split <;> omega

theorem loopIter_reaches (lines : List (List Char)) :
    ∀ (fuel i : Nat), lines.length ≤ fuel + i →
      lines.length ≤ loopIter lines fuel i := by
  intro fuel
  induction fuel with
  | zero =>
    intro i h
    simpa [loopIter] using h
  | succ f ih =>
    intro i h
    by_cases hi : i < lines.length
    · have e : loopIter lines (f + 1) i = loopIter lines f (stepIndex lines i) := by
        simp [loopIter, hi]
      rw [e]
      exact ih _ (by have := stepIndex_gt lines i; omega)
    · have e : loopIter lines (f + 1) i = i := by simp [loopIter, hi]
      rw [e]
      omega

end WrapDebugPrints

namespace WrapDebugPrints

example : wrap_debug_prints ["  debugPrint(1);".toList] =
    ["  if (kDebugMode) \x7b".toList, "    debugPrint(1);".toList, "  \x7d".toList] := by
  decide

example : transformText "x;\ny;".toList = "x;\ny;".toList := by decide

example : wrap_debug_prints ["debugPrint(".toList, "1);".toList] =
    ["if (kDebugMode) \x7b".toList, "  debugPrint(".toList, "  1);".toList,
      "\x7d".toList] := by
  decide

/-! ## The claims -/

/-- C1: whenever the pass, in copy mode with previous input line `prev`,
reaches a line matching the call-start pattern with captured indent that the
already-wrapped check does not classify as guarded, the output continues, in
order, with the line `indent + "if (kDebugMode) \x7b"`, every line of the
call site `[i, j)` with one extra two-space indentation unit prepended, and
the line `indent + "\x7d"`, followed by the transformation of the remaining
lines. -/
theorem C1_unguarded_call_wrapped (prev : Option (List Char)) (l : List Char)
    (ls : List (List Char)) (indent : List Char)
    (hm : matchCallStart l = some indent) (hg : guardCheck prev = false) :
    wrapGo (Mode.copy prev) (l :: ls) =
      guardOpen indent ::
        ((l :: (scanCall (parenBalance l) ls).1).map reindent ++
          guardClose indent ::
            wrapGo (Mode.copy (l :: (scanCall (parenBalance l) ls).1).getLast?)
              (scanCall (parenBalance l) ls).2) :=
  wrapGo_wrap prev l ls indent hm hg

theorem C1_witness :
    matchCallStart ("  debugPrint(7);".toList) = some ("  ".toList) ∧
    guardCheck none = false ∧
    wrapGo (Mode.copy none) ["  debugPrint(7);".toList] =
      ["  if (kDebugMode) \x7b".toList, "    debugPrint(7);".toList,
        "  \x7d".toList] := by
  refine ⟨by decide, rfl, ?_⟩
  rw [C1_unguarded_call_wrapped none ("  debugPrint(7);".toList) []
    ("  ".toList) (by decide) rfl]
  decide

/-- C2, counterexample: the transformation is not idempotent.  Wrapping the
two-line call `debugPrint( / debugPrint(1));` places the interior line
`  debugPrint(1));` directly after `  debugPrint(`, so the second pass sees
it as an unguarded call start and wraps it again. -/
theorem C2_counterexample :
    transformText (transformText ("debugPrint(\ndebugPrint(1));".toList)) ≠
      transformText ("debugPrint(\ndebugPrint(1));".toList) := by
  decide

/-- C2, amended: the transformation is idempotent on every input text whose
call-start lines all have parenthesis balance `≤ 0`, i.e. whose call sites
are all single lines; a second application changes nothing.  (For a
multi-line site, an interior line that itself matches the call-start pattern
can be wrapped again by the second pass, as the counterexample shows.) -/
theorem C2_amended_idempotent (s : List Char)
    (h : ∀ l ∈ splitLines s, (matchCallStart l).isSome = true → parenBalance l ≤ 0) :
    transformText (transformText s) = transformText s := by
  have hnl : ∀ l ∈ splitLines s, '\n' ∉ l := fun l hl =>
    not_newline_mem_of_mem_splitLines hl
  have hout_nl : ∀ l' ∈ wrap_debug_prints (splitLines s), '\n' ∉ l' :=
    wrapGo_no_newline (splitLines s) (Mode.copy none) hnl (fun i b hib => by cases hib)
  have hne : wrap_debug_prints (splitLines s) ≠ [] := by
    rcases hsp : splitLines s with _ | ⟨l, ls⟩
    · exact absurd hsp (splitLines_ne_nil s)
    · exact wrapGo_copy_cons_ne_nil none l ls
  have hsplit : splitLines (joinLines (wrap_debug_prints (splitLines s))) =
      wrap_debug_prints (splitLines s) := by
    unfold splitLines joinLines
    exact List.splitOn_intercalate _ '\n' hout_nl hne
  have hidem : wrap_debug_prints (wrap_debug_prints (splitLines s)) =
      wrap_debug_prints (splitLines s) :=
    already_wrapped_idem_aux (splitLines s) none none h (fun hh => hh)
  unfold transformText
  rw [hsplit, hidem]

theorem C2_amended_witness :
    (∀ l ∈ splitLines ("  debugPrint(9);\nok".toList),
      (matchCallStart l).isSome = true → parenBalance l ≤ 0) ∧
    transformText (transformText ("  debugPrint(9);\nok".toList)) =
      transformText ("  debugPrint(9);\nok".toList) :=
  ⟨by decide, C2_amended_idempotent ("  debugPrint(9);\nok".toList) (by decide)⟩

/-- C3: a line matching the call-start pattern whose immediately preceding
input line, stripped, starts with `if (kDebugMode)` or `assert(` is copied
unchanged, the pass advances by exactly one line (no boundary scan), and no
guard lines are inserted for it. -/
theorem C3_already_guarded_copied (p l : List Char) (ls : List (List Char))
    (indent : List Char) (hm : matchCallStart l = some indent)
    (hg : already_wrapped p = true) :
    wrapGo (Mode.copy (some p)) (l :: ls) = l :: wrapGo (Mode.copy (some l)) ls := by
  simp [wrapGo, hm, guardCheck, hg]

theorem C3_witness :
    matchCallStart ("    debugPrint(\"x\");".toList) = some ("    ".toList) ∧
    already_wrapped ("  if (kDebugMode) \x7b".toList) = true ∧
    wrapGo (Mode.copy (some ("  if (kDebugMode) \x7b".toList)))
        ["    debugPrint(\"x\");".toList] = ["    debugPrint(\"x\");".toList] := by
  refine ⟨by decide, by decide, ?_⟩
  rw [C3_already_guarded_copied ("  if (kDebugMode) \x7b".toList)
    ("    debugPrint(\"x\");".toList) [] ("    ".toList) (by decide) (by decide)]
  rfl

/-- C4: an input text none of whose lines matches the call-start pattern is
transformed to itself, byte for byte. -/
theorem C4_no_match_identity (s : List Char)
    (h : ∀ l ∈ splitLines s, matchCallStart l = none) :
    transformText s = s := by
  unfold transformText wrap_debug_prints
  rw [wrapGo_copy_of_no_match (splitLines s) none h]
  unfold joinLines splitLines
  exact List.intercalate_splitOn s '\n'

theorem C4_witness :
    (∀ l ∈ splitLines ("hello;\n  world();".toList), matchCallStart l = none) ∧
    transformText ("hello;\n  world();".toList) = "hello;\n  world();".toList :=
  ⟨by decide, C4_no_match_identity ("hello;\n  world();".toList) (by decide)⟩

/-- C5, counterexample: a cumulative balance that never *equals* zero does
not mean the site extends to the end of the input: with opening line
`debugPrint((` (balance `+2`) followed by `))))` the balance jumps from `2`
to `-2`, never hitting zero, yet the scan stops there and the final line
`tail` is emitted outside the guard, not re-indented. -/
theorem C5_counterexample :
    (∀ m : Nat, m < 3 →
      cumAfter (parenBalance ("debugPrint((".toList))
        ["))))".toList, "tail".toList] m ≠ 0) ∧
    matchCallStart ("debugPrint((".toList) = some [] ∧
    wrap_debug_prints ["debugPrint((".toList, "))))".toList, "tail".toList] =
      ["if (kDebugMode) \x7b".toList, "  debugPrint((".toList, "  ))))".toList,
        "\x7d".toList, "tail".toList] ∧
    reindent ("tail".toList) ∉
      wrap_debug_prints ["debugPrint((".toList, "))))".toList, "tail".toList] := by
  decide

/-- C5, amended: for an unguarded call whose cumulative parenthesis balance
stays strictly positive at every check before the input ends, the call site
extends to the last line of the input: all remaining lines are emitted,
re-indented, between the guard-opening and guard-closing lines. -/
theorem C5_amended_scan_to_end (prev : Option (List Char)) (l : List Char)
    (ls : List (List Char)) (indent : List Char)
    (hm : matchCallStart l = some indent) (hg : guardCheck prev = false)
    (hp : stayPos (parenBalance l) ls = true) :
    wrapGo (Mode.copy prev) (l :: ls) =
      guardOpen indent :: ((l :: ls).map reindent ++ [guardClose indent]) := by
  rw [wrapGo_wrap prev l ls indent hm hg, scanCall_all_of_stayPos ls _ hp]
  simp [wrapGo]

theorem C5_amended_witness :
    matchCallStart ("debugPrint(".toList) = some [] ∧
    guardCheck none = false ∧
    stayPos (parenBalance ("debugPrint(".toList)) ["  1,".toList, "  2);".toList] = true ∧
    wrapGo (Mode.copy none)
        ["debugPrint(".toList, "  1,".toList, "  2);".toList] =
      ["if (kDebugMode) \x7b".toList, "  debugPrint(".toList, "    1,".toList,
        "    2);".toList, "\x7d".toList] := by
  refine ⟨by decide, rfl, by decide, ?_⟩
  rw [C5_amended_scan_to_end none ("debugPrint(".toList)
    ["  1,".toList, "  2);".toList] [] (by decide) rfl (by decide)]
  decide

/-- C6: every input line appears in the output exactly once, in the original
order, unchanged or with one two-space indentation unit prepended, and the
only other output lines are inserted guard-opening and guard-closing
lines. -/
theorem C6_round_trip (lines : List (List Char)) :
    LineDeriv lines (wrap_debug_prints lines) :=
  wrapGo_deriv lines (Mode.copy none) (fun _ _ h => by cases h)

/-- C7: the scanning loop terminates on every finite input: the line index
strictly increases at every iteration, so iterating the loop body
`len(lines)` times from index `0` is already past the end of the input. -/
theorem C7_loop_terminates (lines : List (List Char)) (i : Nat) :
    i < stepIndex lines i ∧ lines.length ≤ loopIter lines lines.length 0 :=
  ⟨stepIndex_gt lines i,
    loopIter_reaches lines lines.length 0 (by omega)⟩

/-- C8: invoked with fewer than one command-line argument (`len(sys.argv) <
2`, counting the program name), the program prints the usage message to
standard output and exits with a non-zero status; the resulting action, by
construction of `MainAction.usageExit`, reads and writes no file. -/
theorem C8_usage_error (argv : List (List Char)) (h : argv.length < 2) :
    mainEntry argv = MainAction.usageExit usageMessage 1 ∧ (1 : Nat) ≠ 0 :=
  ⟨by simp [mainEntry, h], by omega⟩

theorem C8_witness :
    ["prog".toList].length < 2 ∧
    mainEntry [("prog".toList)] = MainAction.usageExit usageMessage 1 ∧
    (1 : Nat) ≠ 0 :=
  ⟨by decide, C8_usage_error [("prog".toList)] (by decide)⟩

/-- C9: the boundary scan includes a next line only while the cumulative
balance is strictly positive; it consumes a contiguous range, an opening
balance `≤ 0` yields an empty scan (a single-line call site), and when the
scan stops before the end of input it does so because the cumulative balance
has become `≤ 0` — not necessarily exactly zero. -/
theorem C9_scan_boundary (bal : Int) (ls : List (List Char)) :
    (¬ bal > 0 → scanCall bal ls = ([], ls)) ∧
    (scanCall bal ls).1 = ls.take (scanCall bal ls).1.length ∧
    (scanCall bal ls).2 = ls.drop (scanCall bal ls).1.length ∧
    (∀ m : Nat, m < (scanCall bal ls).1.length → cumAfter bal ls m > 0) ∧
    ((scanCall bal ls).1.length < ls.length →
      cumAfter bal ls ((scanCall bal ls).1.length) ≤ 0) :=
  ⟨fun h => scanCall_nonpos h ls,
    (scanCall_take_drop bal ls).1,
    (scanCall_take_drop bal ls).2,
    fun m hm => scanCall_pos_before ls bal m hm,
    fun h => scanCall_stop ls bal h⟩

theorem C9_witness :
    scanCall (-1) ["x".toList] = ([], ["x".toList]) ∧
    cumAfter 1 ["))".toList, "y".toList] 0 > 0 ∧
    cumAfter 1 ["))".toList, "y".toList]
      ((scanCall 1 ["))".toList, "y".toList]).1.length) ≤ 0 :=
  ⟨(C9_scan_boundary (-1) ["x".toList]).1 (by decide),
    (C9_scan_boundary 1 ["))".toList, "y".toList]).2.2.2.1 0 (by decide),
    (C9_scan_boundary 1 ["))".toList, "y".toList]).2.2.2.2 (by decide)⟩

/-- C10: a call-start line at index 0 is always wrapped: the already-wrapped
check is only made when a preceding line exists, and at the first line of
the file there is none (`guardCheck none = false` definitionally), so the
first line of a file can never be considered already guarded. -/
theorem C10_first_line_always_wrapped (l : List Char) (ls : List (List Char))
    (indent : List Char) (hm : matchCallStart l = some indent) :
    wrap_debug_prints (l :: ls) =
      guardOpen indent ::
        ((l :: (scanCall (parenBalance l) ls).1).map reindent ++
          guardClose indent ::
            wrapGo (Mode.copy (l :: (scanCall (parenBalance l) ls).1).getLast?)
              (scanCall (parenBalance l) ls).2) :=
  wrapGo_wrap none l ls indent hm rfl

theorem C10_witness :
    matchCallStart ("debugPrint(5);".toList) = some [] ∧
    wrap_debug_prints ["debugPrint(5);".toList, "x".toList] =
      ["if (kDebugMode) \x7b".toList, "  debugPrint(5);".toList, "\x7d".toList,
        "x".toList] := by
  refine ⟨by decide, ?_⟩
  rw [C10_first_line_always_wrapped ("debugPrint(5);".toList) ["x".toList] []
    (by decide)]
  decide

end WrapDebugPrints
